import Mathlib

/-!
Verification development for the acids_transforms transform-composition and
spectral-representation core (files `transforms/base.py` and
`transforms/spectral_repr.py`).

Tensors are modelled as nested lists of complex scalars together with a
dtype flag (`cplx`) recording whether the tensor has a complex dtype,
mirroring `torch.is_complex`.  Real-dtype tensors carry entries with zero
imaginary part.  The modules `norm.py` (the `Normalize` class) and
`utils/misc.py` (`unwrap`, `fdiff_*`, `fint_*`) are not part of the sources
under verification; they are modelled from the specification, and each such
definition is marked `Modelled from the spec` in its doc string.
-/

/-- Nested-list tensor data: a scalar, or a list of equal-shaped subtensors
(one nesting level per tensor dimension). -/
inductive NTen where
  | s (v : ℂ) : NTen
  | t (l : List NTen) : NTen
deriving Inhabited

/-- A torch tensor: dtype flag (`cplx` = complex dtype) plus nested data. -/
structure Tens where
  cplx : Bool
  data : NTen
deriving Inhabited

mutual
/-- Elementwise map over tensor data. -/
def ntMap (f : ℂ → ℂ) : NTen → NTen
  | .s v => .s (f v)
  | .t l => .t (ntMapL f l)

/-- Elementwise map over a list of subtensors. -/
def ntMapL (f : ℂ → ℂ) : List NTen → List NTen
  | [] => []
  | x :: xs => ntMap f x :: ntMapL f xs
end

mutual
/-- Elementwise zip (broadcast-free binary op) over tensor data. -/
def ntZip (f : ℂ → ℂ → ℂ) : NTen → NTen → NTen
  | .s a, .s b => .s (f a b)
  | .t l, .t m => .t (ntZipL f l m)
  | .s a, .t _ => .s a
  | .t l, .s _ => .t l

/-- Elementwise zip over lists of subtensors. -/
def ntZipL (f : ℂ → ℂ → ℂ) : List NTen → List NTen → List NTen
  | [], _ => []
  | _ :: _, [] => []
  | a :: as, b :: bs => ntZip f a b :: ntZipL f as bs
end

mutual
/-- All scalar entries of tensor data, in row-major order. -/
def ntEntries : NTen → List ℂ
  | .s v => [v]
  | .t l => ntEntriesL l

/-- All scalar entries of a list of subtensors. -/
def ntEntriesL : List NTen → List ℂ
  | [] => []
  | x :: xs => ntEntries x ++ ntEntriesL xs
end

/-- Shape of tensor data (length of each dimension, outermost first). -/
def ntShape : NTen → List ℕ
  | .s _ => []
  | .t [] => [0]
  | .t (h :: r) => (h :: r).length :: ntShape h

/-- Number of dimensions of tensor data. -/
def ntRank : NTen → ℕ
  | .s _ => 0
  | .t [] => 1
  | .t (h :: _) => ntRank h + 1

mutual
/-- Stack two tensors along a new axis at (nonnegative) position `k`,
modelling `torch.stack([a, b], dim)` after dimension normalisation. -/
def ntStackAt : ℕ → NTen → NTen → NTen
  | 0, a, b => .t [a, b]
  | _ + 1, .s v, _ => .s v
  | k + 1, .t l, .t m => .t (ntStackAtL k l m)
  | _ + 1, .t l, .s _ => .t l

/-- Stack pointwise over lists of subtensors. -/
def ntStackAtL : ℕ → List NTen → List NTen → List NTen
  | _, [], _ => []
  | _, _ :: _, [] => []
  | k, a :: as, b :: bs => ntStackAt k a b :: ntStackAtL k as bs
end

mutual
/-- Select index `i` along axis `k` and remove that axis, modelling
`x.index_select(dim, torch.tensor(i)).squeeze(dim)` after dimension
normalisation. -/
def ntSelSq : ℕ → ℕ → NTen → NTen
  | 0, i, .t l => l.getD i (.s 0)
  | _ + 1, _, .s v => .s v
  | k + 1, i, .t l => .t (ntSelSqL k i l)
  | 0, _, .s v => .s v

/-- Select-and-squeeze pointwise over a list of subtensors. -/
def ntSelSqL : ℕ → ℕ → List NTen → List NTen
  | _, _, [] => []
  | k, i, x :: xs => ntSelSq k i x :: ntSelSqL k i xs
end

/-- Normalise a (possibly negative) torch dimension index against rank `r`. -/
def normDim (r : ℕ) (d : ℤ) : ℕ := (if d < 0 then (r : ℤ) + d else d).toNat

/-- Elementwise map on a tensor, keeping its dtype flag. -/
def tmap (f : ℂ → ℂ) (x : Tens) : Tens := ⟨x.cplx, ntMap f x.data⟩

/-- The tensor `x.real`: the real part, with real dtype. -/
def treal (x : Tens) : Tens := ⟨false, ntMap (fun z => (z.re : ℂ)) x.data⟩

/-- The tensor `x.imag`: the imaginary part, with real dtype. -/
def timag (x : Tens) : Tens := ⟨false, ntMap (fun z => (z.im : ℂ)) x.data⟩

/-- The tensor `x.angle()`: the elementwise complex argument, real dtype. -/
noncomputable def tangle (x : Tens) : Tens :=
  ⟨false, ntMap (fun z => (Complex.arg z : ℂ)) x.data⟩

/-- The tensor `torch.zeros_like(x)`: same shape and dtype, zero entries. -/
def zerosLike (x : Tens) : Tens := ⟨x.cplx, ntMap (fun _ => 0) x.data⟩

/-- All scalar entries of a tensor. -/
def tEntries (x : Tens) : List ℂ := ntEntries x.data

/-- The tensor `torch.stack([a, b], dim=d)` (d may be negative). -/
def tstack (d : ℤ) (a b : Tens) : Tens :=
  ⟨a.cplx || b.cplx, ntStackAt (normDim (ntRank a.data + 1) d) a.data b.data⟩

/-- The tensor `x.index_select(d, torch.tensor(i)).squeeze(d)`. -/
def tSelSq (d : ℤ) (i : ℕ) (x : Tens) : Tens :=
  ⟨x.cplx, ntSelSq (normDim (ntRank x.data) d) i x.data⟩

/-- Apply an operation to the list of slices along dimension 0. -/
def tDim0 (g : List NTen → List NTen) (x : Tens) : Tens :=
  match x.data with
  | .t l => ⟨x.cplx, .t (g l)⟩
  | d => ⟨x.cplx, d⟩

/-! ## Normalization (modelled from the spec)

The module `norm.py` (`Normalize`, `NormalizeMode`) is not among the sources
under verification; the definitions below are modelled from spec section 4.2.
-/

/-- The normalization-mode enumeration (spec section 3, `NormalizationMode`). -/
inductive NormMode where
  | UNIPOLAR | BIPOLAR | GAUSSIAN | NONE
deriving DecidableEq, Inhabited

/-- Modelled from the spec: a `Normalize` instance, owning its mode and the
fitted statistics (mean/std or min/max) together with a flag recording
whether `scale_data` has been called (`norm.py` is not under src). -/
structure NormState where
  mode : NormMode
  mean : ℂ
  std : ℝ
  minv : ℝ
  maxv : ℝ
  fitted : Bool

/-- Modelled from the spec: a freshly constructed `Normalize(mode)` with
default statistics and nothing fitted yet. -/
def normInit (m : NormMode) : NormState := ⟨m, 0, 1, 0, 1, false⟩

/-- Modelled from the spec: the small epsilon used to clamp zero denominators
(float32 machine epsilon). -/
noncomputable def normEps : ℝ := 1 / 2 ^ 23

/-- Mean of the entries of a tensor. -/
noncomputable def tMean (x : Tens) : ℂ :=
  (tEntries x).sum / ((tEntries x).length : ℂ)

/-- Variance of the entries of a tensor. -/
noncomputable def tVar (x : Tens) : ℝ :=
  ((tEntries x).map (fun z => Complex.normSq (z - tMean x))).sum /
    ((tEntries x).length : ℝ)

/-- Minimum of the (real parts of the) entries of a tensor. -/
noncomputable def tMin (x : Tens) : ℝ :=
  match (tEntries x).map Complex.re with
  | [] => 0
  | h :: r => r.foldl min h

/-- Maximum of the (real parts of the) entries of a tensor. -/
noncomputable def tMax (x : Tens) : ℝ :=
  match (tEntries x).map Complex.re with
  | [] => 0
  | h :: r => r.foldl max h

/-- Modelled from the spec: `Normalize.scale_data` computes and stores the
statistics required by the mode (mean/std for GAUSSIAN, min/max for
UNIPOLAR/BIPOLAR), overwriting any prior fit; the standard deviation is
clamped to epsilon so later divisions cannot be by zero. -/
noncomputable def normScaleData (n : NormState) (x : Tens) : NormState :=
  match n.mode with
  | .GAUSSIAN =>
      { n with mean := tMean x, std := max (Real.sqrt (tVar x)) normEps,
               fitted := true }
  | .UNIPOLAR => { n with minv := tMin x, maxv := tMax x, fitted := true }
  | .BIPOLAR => { n with minv := tMin x, maxv := tMax x, fitted := true }
  | .NONE => { n with fitted := true }

/-- Modelled from the spec: the denominator `max - min`, clamped to epsilon
to avoid dividing by zero on zero-range inputs. -/
noncomputable def normRange (n : NormState) : ℝ := max (n.maxv - n.minv) normEps

/-- Modelled from the spec: the forward normalization formulas
(UNIPOLAR `(x-min)/(max-min)`, BIPOLAR `2(x-min)/(max-min)-1`,
GAUSSIAN `(x-mean)/std`, NONE identity). -/
noncomputable def normApply (n : NormState) (x : Tens) : Tens :=
  match n.mode with
  | .UNIPOLAR => tmap (fun z => (z - (n.minv : ℂ)) / (normRange n : ℂ)) x
  | .BIPOLAR => tmap (fun z => 2 * (z - (n.minv : ℂ)) / (normRange n : ℂ) - 1) x
  | .GAUSSIAN => tmap (fun z => (z - n.mean) / (n.std : ℂ)) x
  | .NONE => x

/-- Modelled from the spec: the inverse normalization formulas
(UNIPOLAR `x(max-min)+min`, BIPOLAR `(x+1)/2(max-min)+min`,
GAUSSIAN `x std + mean`, NONE identity). -/
noncomputable def normInvert (n : NormState) (x : Tens) : Tens :=
  match n.mode with
  | .UNIPOLAR => tmap (fun z => z * (normRange n : ℂ) + (n.minv : ℂ)) x
  | .BIPOLAR =>
      tmap (fun z => (z + 1) / 2 * (normRange n : ℂ) + (n.minv : ℂ)) x
  | .GAUSSIAN => tmap (fun z => z * (n.std : ℂ) + n.mean) x
  | .NONE => x

/-- The `norm` member of a representation: `Normalize(mode)` when a mode was
given, or the pass-through `Dummy()` transform when the mode is `None`
(`_Representation.__init__`). -/
def RepNorm := Option NormState

/-- Forward of the `norm` member (`Dummy` forwards its input unchanged). -/
noncomputable def repNormApply : RepNorm → Tens → Tens
  | none, x => x
  | some n, x => normApply n x

/-- Invert of the `norm` member (`Dummy.invert` returns its input). -/
noncomputable def repNormInvert : RepNorm → Tens → Tens
  | none, x => x
  | some n, x => normInvert n x

/-- Scale-data of the `norm` member (`Dummy.scale_data` is a no-op). -/
noncomputable def repNormScale : RepNorm → Tens → RepNorm
  | none, _ => none
  | some n, x => some (normScaleData n x)

/-! ## Phase unwrapping and finite differences (modelled from the spec)

The functions `unwrap`, `fdiff_forward/backward/central` and
`fint_forward/backward/central` live in `utils/misc.py`, which is not among
the sources under verification; they are modelled from spec section 4.4.
All of them act along dimension 0, the dimension the scale factors in
`IF.get_if` and `IF.invert` are applied along.
-/

/-- Modelled from the spec: reduce a phase difference to its principal value
in the interval `(-pi, pi]` (removing `2 pi` discontinuities). -/
noncomputable def wrapR (r : ℝ) : ℝ := toIocMod Real.two_pi_pos (-Real.pi) r

/-- Principal-value reduction on a (real-valued) scalar entry. -/
noncomputable def wrapC (z : ℂ) : ℂ := (wrapR z.re : ℂ)

/-- Modelled from the spec: the tail of the unwrapped trajectory; each output
is the previous unwrapped value plus the principal value of the raw step. -/
noncomputable def unwrapAuxL (prevRaw prevU : NTen) : List NTen → List NTen
  | [] => []
  | p :: r =>
      let u := ntZip (fun a b => a + b) prevU
        (ntZip (fun c d => wrapC (c - d)) p prevRaw)
      u :: unwrapAuxL p u r

/-- Modelled from the spec: `unwrap` removes `2 pi` discontinuities along
dimension 0, producing a continuous phase trajectory starting at the first
slice (`utils/misc.py` is not under src). -/
noncomputable def tunwrap (x : Tens) : Tens :=
  match x.data with
  | .t (p :: r) => ⟨x.cplx, .t (p :: unwrapAuxL p p r)⟩
  | d => ⟨x.cplx, d⟩

/-- Consecutive differences `l[i] - l[i-1]` starting from `prev`. -/
def consecDiffL (prev : NTen) : List NTen → List NTen
  | [] => []
  | y :: r => ntZip (fun a b => a - b) y prev :: consecDiffL y r

/-- Modelled from the spec: the FORWARD stencil `d[i] = p[i+1] - p[i]` on all
but the last index (the last slice carries no difference). -/
def fdiffForwardL : List NTen → List NTen
  | [] => []
  | x :: r => consecDiffL x r ++ [ntMap (fun _ => 0) x]

/-- Modelled from the spec: the BACKWARD stencil `d[i] = p[i] - p[i-1]` on all
but the first index. -/
def fdiffBackwardL : List NTen → List NTen
  | [] => []
  | x :: r => ntMap (fun _ => 0) x :: consecDiffL x r

/-- Centered differences `(p[i+1] - p[i-1]) / 2` for the interior indices. -/
noncomputable def centralDiffL : NTen → List NTen → List NTen
  | _, [] => []
  | _, [_] => []
  | pm1, pi0 :: p1 :: r =>
      ntZip (fun a b => (a - b) / 2) p1 pm1 :: centralDiffL pi0 (p1 :: r)
termination_by _ l => l.length

/-- Modelled from the spec: the CENTRAL stencil `d[i] = (p[i+1] - p[i-1]) / 2`
on the interior indices (boundary slices carry no difference). -/
noncomputable def fdiffCentralL : List NTen → List NTen
  | [] => []
  | [x] => [ntMap (fun _ => 0) x]
  | x :: y :: r =>
      ntMap (fun _ => 0) x ::
        (centralDiffL x (y :: r) ++ [ntMap (fun _ => 0) (r.getLastD y)])

/-- Running partial sums placed after a zero start (exclusive prefix sums). -/
def scanAddL (acc : NTen) : List NTen → List NTen
  | [] => []
  | d :: r => acc :: scanAddL (ntZip (fun a b => a + b) acc d) r

/-- Modelled from the spec: the exact integration inverse of the FORWARD
stencil, the cumulative-sum variant with `q[i] = d[0] + ... + d[i-1]`, which
reconstructs the trajectory up to the constant offset `p[0]`. -/
def fintForwardL (l : List NTen) : List NTen :=
  match l with
  | [] => []
  | d :: _ => scanAddL (ntMap (fun _ => 0) d) l

/-- Inclusive cumulative sums starting from `acc`. -/
def cumAddL (acc : NTen) : List NTen → List NTen
  | [] => [acc]
  | d :: r => acc :: cumAddL (ntZip (fun a b => a + b) acc d) r

/-- Modelled from the spec: the exact integration inverse of the BACKWARD
stencil, the cumulative sum `q[i] = d[0] + ... + d[i]`, which reconstructs
the trajectory up to the constant offset `p[0]`. -/
def fintBackwardL : List NTen → List NTen
  | [] => []
  | d :: r => cumAddL d r

/-- The second step of the central reconstruction: `q[i+1] = q[i-1] + 2 d[i]`
over the interior differences. -/
def centralIntAux (qm1 q0 : NTen) : List NTen → List NTen
  | [] => []
  | d :: r =>
      let q1 := ntZip (fun a b => a + 2 * b) qm1 d
      q1 :: centralIntAux q0 q1 r

/-- Modelled from the spec: the two-step reconstruction inverting the CENTRAL
stencil: the two leading slices anchor the even and odd chains, and each
further slice is `q[i+1] = q[i-1] + 2 d[i]`. -/
def fintCentralL : List NTen → List NTen
  | [] => []
  | [d] => [ntMap (fun _ => 0) d]
  | d :: d1 :: r =>
      let z := ntMap (fun _ => 0) d
      z :: z :: centralIntAux z z ((d1 :: r).dropLast)

/-! ## The transform algebra (`transforms/base.py`)

A concrete transform instance is modelled by its `forward` and `invert`
functions together with its three capability flags; `ComposeAudioTransform`
is a node holding an ordered list of transforms.  This shallowly embeds the
dynamic dispatch of `nn.Module` subclasses.
-/

/-- A (leaf) `AudioTransform` instance: forward, invert and the class flags
`invertible`, `scriptable`, `needs_scaling` (`base.py` lines 16-19). -/
structure ATLeaf where
  fwd : Tens → Tens
  inv : Tens → Tens
  invertible : Bool
  scriptable : Bool
  needs_scaling : Bool

/-- A transform: a leaf instance or a `ComposeAudioTransform` holding an
ordered list of child transforms (`self.transforms`). -/
inductive AT where
  | leaf (t : ATLeaf) : AT
  | comp (ts : List AT) : AT

mutual
/-- The `invertible` flag: a leaf reports its own flag; a composition loops
over its children and returns false as soon as one child is not invertible
(`ComposeAudioTransform.invertible`, `base.py` lines 76-81). -/
def atInvertible : AT → Bool
  | .leaf t => t.invertible
  | .comp ts => atAllInvertible ts

/-- The loop `for t in self.transforms: if not t.invertible: return False`
followed by `return True`. -/
def atAllInvertible : List AT → Bool
  | [] => true
  | t :: ts => if !(atInvertible t) then false else atAllInvertible ts
end

mutual
/-- The `needs_scaling` flag: a composition loops over its children and
returns true as soon as one child needs scaling
(`ComposeAudioTransform.needs_scaling`, `base.py` lines 83-88). -/
def atNeedsScaling : AT → Bool
  | .leaf t => t.needs_scaling
  | .comp ts => atAnyNeedsScaling ts

/-- The loop `for t in self.transforms: if t.needs_scaling: return True`
followed by `return False`. -/
def atAnyNeedsScaling : List AT → Bool
  | [] => false
  | t :: ts => if atNeedsScaling t then true else atAnyNeedsScaling ts
end

mutual
/-- The `scriptable` flag: a composition loops over its children and returns
false as soon as one child is not scriptable
(`ComposeAudioTransform.scriptable`, `base.py` lines 90-95). -/
def atScriptable : AT → Bool
  | .leaf t => t.scriptable
  | .comp ts => atAllScriptable ts

/-- The loop `for t in self.transforms: if not t.scriptable: return False`
followed by `return True`. -/
def atAllScriptable : List AT → Bool
  | [] => true
  | t :: ts => if !(atScriptable t) then false else atAllScriptable ts
end

mutual
/-- Forward: a leaf applies its own forward; a composition folds its children
left-to-right (`ComposeAudioTransform.forward`, `base.py` lines 131-135). -/
def atFwd : AT → Tens → Tens
  | .leaf t, x => t.fwd x
  | .comp ts, x => atFwdL ts x

/-- The loop `for t in self.transforms: x = t(x)` followed by `return x`. -/
def atFwdL : List AT → Tens → Tens
  | [], x => x
  | t :: ts, x => atFwdL ts (atFwd t x)
end

mutual
/-- Invert: a leaf applies its own invert; a composition folds its children
in reverse order (`ComposeAudioTransform.invert`, `base.py` lines 142-146:
`for t in self.transforms[::-1]: x = t.invert(x)`). -/
def atInv : AT → Tens → Tens
  | .leaf t, x => t.inv x
  | .comp ts, x => atInvL ts x

/-- Reverse-order fold: the last child inverts first. -/
def atInvL : List AT → Tens → Tens
  | [], x => x
  | t :: ts, x => atInv t (atInvL ts x)
end

/-- The child list used by the composition operator: `transform.transforms`
for a composition, the singleton `[self]` for a leaf. -/
def atChildren : AT → List AT
  | .leaf t => [.leaf t]
  | .comp ts => ts

/-- The composition operator `+` (`AudioTransform.__add__`, `base.py` lines
28-35, and `ComposeAudioTransform.__add__`, lines 107-114): each branch of
the `isinstance` dispatch builds a `ComposeAudioTransform` over the flattened
concatenation of the two child lists. -/
def atAdd : AT → AT → AT
  | .leaf a, .comp m => .comp (.leaf a :: m)
  | .leaf a, .leaf b => .comp [.leaf a, .leaf b]
  | .comp l, .comp m => .comp (l ++ m)
  | .comp l, .leaf b => .comp (l ++ [.leaf b])

/-- The exception class `NotInvertibleError` (`base.py` line 9); it is the
only error the invert contract of the spec mentions. -/
inductive NotInvErr where
  | notInvertible
deriving DecidableEq

/-- The error raised by `AudioTransform.test_inversion` when the transform is
not invertible (`raise NotImplementedError`, `base.py` line 61). -/
inductive TestInvErr where
  | notImplemented
deriving DecidableEq

/-- The default `AudioTransform.invert` (`base.py` lines 47-48): the body is
`return x`; it can never raise, so the embedding always returns a value. -/
def baseInvert (x : Tens) : Except NotInvErr Tens := .ok x

/-- Embedding of `AudioTransform.test_inversion` (`base.py` lines 59-64): raise
`NotImplementedError` when the flag is false, otherwise forward then invert
and return the inverted tensor. -/
def baseTestInversion (t : ATLeaf) (x : Tens) : Except TestInvErr Tens :=
  if !t.invertible then .error .notImplemented
  else .ok (t.inv (t.fwd x))

/-! ## Elementary representations (`transforms/spectral_repr.py`) -/

/-- Embedding of `Real.forward` (`spectral_repr.py` lines 67-69): normalize the real
part. -/
noncomputable def realFwd (n : RepNorm) (x : Tens) : Tens :=
  repNormApply n (treal x)

/-- Embedding of `Imaginary.forward` (`spectral_repr.py` lines 93-98): normalize the
imaginary part when the input is complex, otherwise a zero tensor of the
same shape. -/
noncomputable def imagFwd (n : RepNorm) (x : Tens) : Tens :=
  if x.cplx then repNormApply n (timag x) else zerosLike x

/-- Embedding of `Phase.forward` (`spectral_repr.py` lines 229-231): normalize the
angle. -/
noncomputable def phaseFwd (n : RepNorm) (x : Tens) : Tens :=
  repNormApply n (tangle x)

/-- Embedding of `_Representation.invert` (`spectral_repr.py` lines 46-48), inherited by
Real, Imaginary, Magnitude and Phase: denormalize only. -/
noncomputable def repInvert (n : RepNorm) (x : Tens) : Tens :=
  repNormInvert n x

/-- The elementary representation classes of `spectral_repr.py`. -/
inductive RepClass where
  | RealR | ImaginaryR | MagnitudeR | PhaseR | IFR
deriving DecidableEq

/-- An elementary representation instance: its class together with its
configuration (wrapped norm and, for IF, method and weighting). -/
structure RepInstance where
  cls : RepClass
  norm : RepNorm
  weighted : Bool

/-- Embedding of `_Representation.invertible` (`spectral_repr.py` lines 34-36): the
property returns `True` for every instance, whatever its configuration. -/
def repInvertible (_ : RepInstance) : Bool := true

/-- Embedding of `_Representation.scriptable` (`spectral_repr.py` lines 30-32): the
property returns `True` for every instance. -/
def repScriptable (_ : RepInstance) : Bool := true

/-- Embedding of `_Representation.needs_scaling` (`spectral_repr.py` lines 38-40): the
property returns `False` for every instance, shadowing the class attribute
`needs_scaling = True` of line 21. -/
def repNeedsScaling (_ : RepInstance) : Bool := false

/-- View an elementary representation instance as a transform leaf carrying
the `_Representation` property flags; its forward and invert functions are
passed in (they differ per class). -/
def repFlagsLeaf (r : RepInstance) (f g : Tens → Tens) : ATLeaf :=
  ⟨f, g, repInvertible r, repScriptable r, repNeedsScaling r⟩

/-! ## Instantaneous frequency (`IF`, `spectral_repr.py` lines 249-317) -/

/-- The `IFMethods` enumeration (`spectral_repr.py` lines 249-252). -/
inductive IFMethods where
  | FORWARD | BACKWARD | CENTRAL
deriving DecidableEq

/-- The value of the mutable `self.method` field: one of the three enum
members, or any other value (Python performs no validation on
assignment). -/
inductive IFMethodField where
  | known (m : IFMethods) : IFMethodField
  | other : IFMethodField
deriving DecidableEq

/-- The `AttributeError("method ... not known")` raised by `IF.get_if`
(`spectral_repr.py` line 280). -/
inductive AttrErr where
  | methodNotKnown
deriving DecidableEq

/-- An `IF` instance: method, wrapped norm, weighting flag
(`IF.__init__`, `spectral_repr.py` lines 260-265). -/
structure IFT where
  method : IFMethodField
  norm : RepNorm
  weighted : Bool

/-- The constant `torch.pi` as a complex scalar. -/
noncomputable def piC : ℂ := (Real.pi : ℂ)

/-- Divide all slices after the first along dimension 0 by applying `f`
(`inst_f[1:] /= c` patterns). -/
def modTailL (f : ℂ → ℂ) : List NTen → List NTen
  | [] => []
  | h :: r => h :: ntMapL f r

/-- Apply `f` to all slices but the last along dimension 0
(`inst_f[:-1] /= c` patterns). -/
def modInitL (f : ℂ → ℂ) : List NTen → List NTen
  | [] => []
  | [x] => [x]
  | h :: r => ntMap f h :: modInitL f r

/-- Apply `f` to the interior slices along dimension 0
(`inst_f[1:-1] /= c` patterns). -/
def modInteriorL (f : ℂ → ℂ) : List NTen → List NTen
  | [] => []
  | h :: r => h :: modInitL f r

/-- The triangular window value
`(1.5 N)/(N^2-1) (1 - ((n - (N/2 - 1))/(N/2))^2)`
(`IF._get_weighted_window`, `spectral_repr.py` lines 286-294). -/
noncomputable def winVal (N : ℕ) (n : ℕ) : ℝ :=
  (1.5 * N) / ((N : ℝ) ^ 2 - 1) *
    (1 - (((n : ℝ) - ((N : ℝ) / 2 - 1)) / ((N : ℝ) / 2)) ^ 2)

mutual
/-- Multiply along the axis at position `k`: slice `i` of that axis is scaled
by `w i` (the broadcasted `window * inst_f` product). -/
def ntWinMul (w : ℕ → ℂ) : ℕ → NTen → NTen
  | _, .s v => .s v
  | 0, .t l => .t (ntWinIdxL w 0 l)
  | k + 1, .t l => .t (ntWinMulL w k l)

/-- Map the window multiplication over subtensors. -/
def ntWinMulL (w : ℕ → ℂ) (k : ℕ) : List NTen → List NTen
  | [] => []
  | h :: r => ntWinMul w k h :: ntWinMulL w k r

/-- Scale the `i`-th slice by `w i`. -/
def ntWinIdxL (w : ℕ → ℂ) : ℕ → List NTen → List NTen
  | _, [] => []
  | i, h :: r => ntMap (fun v => w i * v) h :: ntWinIdxL w (i + 1) r
end

/-- The length of the second-to-last axis, `x.size(-2)`. -/
def sizeNeg2 (x : Tens) : ℕ := (ntShape x.data).getD (ntRank x.data - 2) 0

/-- Multiply a tensor by the triangular window of length `x.size(-2)`
broadcast along the second-to-last axis (`window * inst_f`). -/
noncomputable def applyWindow (x : Tens) : Tens :=
  ⟨x.cplx,
    ntWinMul (fun i => (winVal (sizeNeg2 x) i : ℂ)) (ntRank x.data - 2) x.data⟩

/-- Embedding of `IF.get_if` (`spectral_repr.py` lines 267-284): unwrap the angle along
dimension 0, apply the finite-difference stencil of the configured method
with its scale factor (`[1:] /= -pi` for BACKWARD, `[:-1] /= pi` for
FORWARD, `[1:-1] /= 2 pi` for CENTRAL), raise `AttributeError` for an
unknown method, and finally multiply by the triangular window when
`weighted` is set. -/
noncomputable def ifGetIF (c : IFT) (x : Tens) : Except AttrErr Tens :=
  let phase := tunwrap (tangle x)
  let instF : Except AttrErr Tens :=
    match c.method with
    | .known .BACKWARD =>
        .ok (tDim0 (modTailL (fun v => v / (-piC))) (tDim0 fdiffBackwardL phase))
    | .known .FORWARD =>
        .ok (tDim0 (modInitL (fun v => v / piC)) (tDim0 fdiffForwardL phase))
    | .known .CENTRAL =>
        .ok (tDim0 (modInteriorL (fun v => v / (2 * piC)))
          (tDim0 fdiffCentralL phase))
    | .other => .error .methodNotKnown
  instF.map (fun y => if c.weighted then applyWindow y else y)

/-- Embedding of `IF.forward` (`spectral_repr.py` lines 300-303): `get_if` then
normalize. -/
noncomputable def ifForward (c : IFT) (x : Tens) : Except AttrErr Tens :=
  (ifGetIF c x).map (repNormApply c.norm)

/-- Embedding of `IF.invert` (`spectral_repr.py` lines 305-317): denormalize; for
BACKWARD, `x[1:] *= -pi` then `fint_backward`; then (a separate `if`, not an
`elif`) for FORWARD, `x[:-1] *= pi` then `fint_forward`; else for CENTRAL,
`x[1:-1] *= pi` then `fint_central`.  Note the CENTRAL branch multiplies by
`pi`, not by the `2 pi` the forward pass divided by.  No branch raises, so
the embedding always returns a value. -/
noncomputable def ifInvert (c : IFT) (x : Tens) : Except AttrErr Tens :=
  let x1 := repNormInvert c.norm x
  let x2 :=
    if c.method = .known .BACKWARD then
      tDim0 fintBackwardL (tDim0 (modTailL (fun v => v * (-piC))) x1)
    else x1
  if c.method = .known .FORWARD then
    .ok (tDim0 fintForwardL (tDim0 (modInitL (fun v => v * piC)) x2))
  else if c.method = .known .CENTRAL then
    .ok (tDim0 fintCentralL (tDim0 (modInteriorL (fun v => v * piC)) x2))
  else .ok x2

/-! ## Spectral representation pairs (`spectral_repr.py` lines 336-437) -/

/-- The return type of `SpectralRepresentation.forward`: one stacked tensor
when a stack axis is set, a pair otherwise. -/
inductive SROut where
  | single (t : Tens) : SROut
  | pair (a b : Tens) : SROut

/-- Embedding of `SpectralRepresentation.forward` (`spectral_repr.py` lines 369-376):
compute both children, then stack along the configured axis, or return the
pair when the axis is `None`. -/
def srForward (magF phaF : Tens → Tens) (stk : Option ℤ) (x : Tens) : SROut :=
  let magnitude := magF x
  let phase := phaF x
  match stk with
  | some d => .single (tstack d magnitude phase)
  | none => .pair magnitude phase

/-- Embedding of `SpectralRepresentation.invert` (`spectral_repr.py` lines 378-390):
split the input along the stack axis (or unpack the pair), invert each
child, and reconstruct `mag * exp(phase * 1j)`. -/
noncomputable def srInvert (magI phaI : Tens → Tens) (stk : Option ℤ)
    (y : SROut) : Tens :=
  let mp : Tens × Tens :=
    match stk, y with
    | none, .pair a b => (a, b)
    | some d, .single z => (tSelSq d 0 z, tSelSq d 1 z)
    | none, .single z => (tSelSq 0 0 z, tSelSq 0 1 z)
    | some _, .pair a b => (a, b)
  let mag := magI mp.1
  let phase := phaI mp.2
  ⟨true, ntZip (fun m p => m * Complex.exp (p * Complex.I)) mag.data phase.data⟩

/-- A `Cartesian` instance (`spectral_repr.py` lines 411-418): the
"magnitude" child is `Real(real_mode)`, the "phase" child is
`Imaginary(imag_mode)`, plus the stack axis (default `-2`). -/
structure CartT where
  mag : RepNorm
  pha : RepNorm
  stack : Option ℤ

/-- Embedding of `Cartesian.__init__`: build the two children from the configured
normalization modes (`None` gives the pass-through `Dummy`). -/
def cartInit (rm im : Option NormMode) (stk : Option ℤ) : CartT :=
  ⟨rm.map normInit, im.map normInit, stk⟩

/-- Embedding of `SpectralRepresentation.scale_data` (`spectral_repr.py` lines 364-367)
for Cartesian: `Real.scale_data` fits on `x.real`, `Imaginary.scale_data`
fits on `x.imag` (`spectral_repr.py` lines 71-73 and 100-102). -/
noncomputable def cartScaleData (c : CartT) (x : Tens) : CartT :=
  { c with mag := repNormScale c.mag (treal x),
           pha := repNormScale c.pha (timag x) }

/-- The `Cartesian` forward: the inherited `SpectralRepresentation.forward` over
the `Real` and `Imaginary` children. -/
noncomputable def cartForward (c : CartT) (x : Tens) : SROut :=
  srForward (realFwd c.mag) (imagFwd c.pha) c.stack x

/-- The `Cartesian` invert: the inherited `SpectralRepresentation.invert`; each
child invert is `_Representation.invert`, i.e. denormalize only, and the
complex value is reassembled as `mag * exp(phase * 1j)`. -/
noncomputable def cartInvert (c : CartT) (y : SROut) : Tens :=
  srInvert (repInvert c.mag) (repInvert c.pha) c.stack y

/-- The default tolerance of the `invert` signatures (`1e-4`). -/
noncomputable def invTolerance : ℝ := 1 / 10 ^ 4

/-! ## Concrete instances used by the theorems -/

/-- A real-dtype one-entry tensor holding `1`. -/
def txOne : Tens := ⟨false, .t [.s 1]⟩

/-- A minimal transform instance with `invertible = False` that keeps the
inherited `AudioTransform.forward` and `AudioTransform.invert` (both
`return x`); nothing in `base.py` stops a subclass from doing exactly
this. -/
def nonInvT : ATLeaf := ⟨fun x => x, fun x => x, false, false, false⟩

/-- The `Dummy` transform of `spectral_repr.py` line 14 (equivalently a bare
`AudioTransform`): forward and invert return their input; class flags
`invertible = True`, `scriptable = False`, `needs_scaling = False`
(`base.py` lines 17-19). -/
def dummyT : ATLeaf := ⟨fun x => x, fun x => x, true, false, false⟩

/-- An `Imaginary(mode=None)` instance as a transform leaf: forward is
`Imaginary.forward`, invert is `_Representation.invert`, flags are the
`_Representation` properties (all elementary representations report
invertible and scriptable, and no need for scaling). -/
noncomputable def imagLeaf (n : RepNorm) : ATLeaf :=
  ⟨imagFwd n, repInvert n, true, true, false⟩

/-- A uniform 1x1 complex tensor of value `1 + 1j`. -/
def xCart : Tens := ⟨true, .t [.t [.s (1 + Complex.I)]]⟩

/-- The default `Cartesian()` (GAUSSIAN real and imaginary modes, stack
axis `-2`). -/
def cartDefault : CartT := cartInit (some .GAUSSIAN) (some .GAUSSIAN) (some (-2))

/-- A 1-D complex signal whose angles are `0, pi/2, pi, -pi/2`. -/
def xIF : Tens := ⟨true, .t [.s 1, .s Complex.I, .s (-1), .s (-Complex.I)]⟩

/-- An `IF` instance with the CENTRAL method, no normalization
(`mode=None`), unweighted. -/
def cfgCentral : IFT := ⟨.known .CENTRAL, none, false⟩

/-- An `IF` instance whose `method` field holds none of the three enum
members. -/
def cfgOther : IFT := ⟨.other, none, false⟩

/-- A 3x1 complex tensor whose angles are `0, pi/2, pi`. -/
def xWin : Tens := ⟨true, .t [.t [.s 1], .t [.s Complex.I], .t [.s (-1)]]⟩

/-! ## General lemmas about the composition algebra -/

/-- Every branch of the `+` dispatch builds the composition over the
flattened concatenation of the two child lists. -/
theorem atAdd_eq (x y : AT) :
    atAdd x y = .comp (atChildren x ++ atChildren y) := by
  cases x <;> cases y <;> rfl

/-- The early-return loop of `ComposeAudioTransform.invertible` computes the
conjunction over the children. -/
theorem atAllInvertible_eq (ts : List AT) :
    atAllInvertible ts = ts.all atInvertible := by
  induction ts with
  | nil => rfl
  | cons t ts ih =>
      rw [atAllInvertible, List.all_cons, ih]
      cases atInvertible t <;> simp

/-- The early-return loop of `ComposeAudioTransform.needs_scaling` computes
the disjunction over the children. -/
theorem atAnyNeedsScaling_eq (ts : List AT) :
    atAnyNeedsScaling ts = ts.any atNeedsScaling := by
  induction ts with
  | nil => rfl
  | cons t ts ih =>
      rw [atAnyNeedsScaling, List.any_cons, ih]
      cases atNeedsScaling t <;> simp

/-- The early-return loop of `ComposeAudioTransform.scriptable` computes the
conjunction over the children. -/
theorem atAllScriptable_eq (ts : List AT) :
    atAllScriptable ts = ts.all atScriptable := by
  induction ts with
  | nil => rfl
  | cons t ts ih =>
      rw [atAllScriptable, List.all_cons, ih]
      cases atScriptable t <;> simp

/-- The left-to-right forward fold splits over list concatenation. -/
theorem atFwdL_append (l m : List AT) (x : Tens) :
    atFwdL (l ++ m) x = atFwdL m (atFwdL l x) := by
  induction l generalizing x with
  | nil => rfl
  | cons t ts ih => simp [atFwdL, ih]

/-- The reverse-order invert fold splits over list concatenation. -/
theorem atInvL_append (l m : List AT) (x : Tens) :
    atInvL (l ++ m) x = atInvL l (atInvL m x) := by
  induction l with
  | nil => rfl
  | cons t ts ih => simp [atInvL, ih]

/-- Folding forward over the child list of a transform is forwarding through the
transform itself. -/
theorem atFwdL_children (A : AT) (x : Tens) :
    atFwdL (atChildren A) x = atFwd A x := by
  cases A <;> rfl

/-- Folding invert over the child list of a transform is inverting through the
transform itself. -/
theorem atInvL_children (A : AT) (x : Tens) :
    atInvL (atChildren A) x = atInv A x := by
  cases A <;> rfl

/-- Forward through `A + B` is the forward of `B` after the forward of `A`. -/
theorem atAdd_fwd (A B : AT) (x : Tens) :
    atFwd (atAdd A B) x = atFwd B (atFwd A x) := by
  rw [atAdd_eq]
  show atFwdL (atChildren A ++ atChildren B) x = _
  rw [atFwdL_append, atFwdL_children, atFwdL_children]

/-- Invert through `A + B` is the invert of `A` after the invert of `B`. -/
theorem atAdd_inv (A B : AT) (y : Tens) :
    atInv (atAdd A B) y = atInv A (atInv B y) := by
  rw [atAdd_eq]
  show atInvL (atChildren A ++ atChildren B) y = _
  rw [atInvL_append, atInvL_children, atInvL_children]

/-! ## Claim theorems -/

/-- C3, counterexample: a transform whose `invertible` flag is false and
whose `invert` is the inherited `AudioTransform.invert` does not fail with
`NotInvertibleError`; the default invert returns its argument (`.ok`), and a
composition containing it likewise returns a value. -/
theorem c3_counterexample :
    nonInvT.invertible = false
    ∧ baseInvert txOne = Except.ok txOne
    ∧ atInv (AT.comp [AT.leaf nonInvT]) txOne = txOne :=
  ⟨rfl, rfl, rfl⟩

/-- C3, amended: for a transform whose `invertible` flag is false, `invert`
does not raise `NotInvertibleError` — the inherited default returns its
argument unchanged (the exception class is defined but never raised in the
core); only `test_inversion` consults the flag, and it raises
`NotImplementedError`. -/
theorem c3_amended (t : ATLeaf) (x : Tens) (h : t.invertible = false) :
    baseInvert x = Except.ok x
    ∧ baseTestInversion t x = Except.error TestInvErr.notImplemented := by
  refine ⟨rfl, ?_⟩
  simp [baseTestInversion, h]

/-- C3, witness: the amended statement at the concrete non-invertible
transform and tensor. -/
theorem c3_witness :
    baseInvert txOne = Except.ok txOne
    ∧ baseTestInversion nonInvT txOne = Except.error TestInvErr.notImplemented :=
  c3_amended nonInvT txOne rfl

/-- C4, counterexample: on an empty child list, the aggregate
`needs_scaling` flag of a composition is false, not true — the disjunction
over no children is false (`base.py` lines 83-88 fall through to
`return False`). -/
theorem c4_counterexample :
    atNeedsScaling (AT.comp []) = false
    ∧ atNeedsScaling (AT.comp []) ≠ true := by
  exact ⟨rfl, by simp [atNeedsScaling, atAnyNeedsScaling]⟩

/-- C4, amended: for a composed transform with children `ts`, `invertible`
is the conjunction of the flags of the children, `needs_scaling` the disjunction,
and `scriptable` the conjunction; on an empty child list the two
conjunctions are true and the disjunction is false.  The flags are functions
of the child list (computed properties), which is what this embedding
states. -/
theorem c4_amended (ts : List AT) :
    atInvertible (AT.comp ts) = ts.all atInvertible
    ∧ atNeedsScaling (AT.comp ts) = ts.any atNeedsScaling
    ∧ atScriptable (AT.comp ts) = ts.all atScriptable
    ∧ atInvertible (AT.comp []) = true
    ∧ atNeedsScaling (AT.comp []) = false
    ∧ atScriptable (AT.comp []) = true := by
  refine ⟨?_, ?_, ?_, rfl, rfl, rfl⟩
  · rw [atInvertible]; exact atAllInvertible_eq ts
  · rw [atNeedsScaling]; exact atAnyNeedsScaling_eq ts
  · rw [atScriptable]; exact atAllScriptable_eq ts

/-- C5, counterexample: two transforms whose `invertible` flags are both
true (Imaginary with `mode=None`, and the identity `Dummy`) for which
`(A+B).invert((A+B).forward(x))` is not `x`: on a real-dtype input,
`Imaginary.forward` returns zeros and its invert only denormalizes, so the
round trip loses the input — the `invertible` flag alone does not guarantee
the round trip. -/
theorem c5_counterexample :
    atInvertible (AT.leaf (imagLeaf none)) = true
    ∧ atInvertible (AT.leaf dummyT) = true
    ∧ atInv (atAdd (AT.leaf (imagLeaf none)) (AT.leaf dummyT))
        (atFwd (atAdd (AT.leaf (imagLeaf none)) (AT.leaf dummyT)) txOne)
      ≠ txOne := by
  refine ⟨rfl, rfl, ?_⟩
  intro h
  rw [atAdd_fwd, atAdd_inv] at h
  simp only [atFwd, atInv, imagLeaf, dummyT, imagFwd, txOne, zerosLike,
    repInvert, repNormInvert, ntMap, ntMapL] at h
  simp at h

/-- C5, amended: composed invert folds the children right-to-left, so
`(A+B).invert(y) = A.invert(B.invert(y))` unconditionally; and when each
own round trip of each child holds at the corresponding intermediate value (which
the `invertible` flag alone does not guarantee),
`(A+B).invert((A+B).forward(x)) = x`. -/
theorem c5_amended (A B : AT) (x y : Tens)
    (hB : atInv B (atFwd B (atFwd A x)) = atFwd A x)
    (hA : atInv A (atFwd A x) = x) :
    atInv (atAdd A B) y = atInv A (atInv B y)
    ∧ atInv (atAdd A B) (atFwd (atAdd A B) x) = x := by
  refine ⟨atAdd_inv A B y, ?_⟩
  rw [atAdd_fwd, atAdd_inv, hB, hA]

/-- C5, witness: the amended statement at two concrete `Dummy` transforms
and a concrete tensor; both hypotheses hold definitionally. -/
theorem c5_witness :
    atInv (atAdd (AT.leaf dummyT) (AT.leaf dummyT)) txOne
        = atInv (AT.leaf dummyT) (atInv (AT.leaf dummyT) txOne)
    ∧ atInv (atAdd (AT.leaf dummyT) (AT.leaf dummyT))
        (atFwd (atAdd (AT.leaf dummyT) (AT.leaf dummyT)) txOne) = txOne :=
  c5_amended (AT.leaf dummyT) (AT.leaf dummyT) txOne txOne rfl rfl

/-- C6: the composition operator flattens — the child list of `A + B` is the
concatenation of the children of `A` (or `[A]`) with the children of `B` (or `[B]`);
consequently `(A+B)+C` and `A+(B+C)` are the same composition, with the same
flattened child ordering and identical forward and invert results. -/
theorem c6_add_flattens (a b c : AT) :
    atChildren (atAdd a b) = atChildren a ++ atChildren b
    ∧ atAdd (atAdd a b) c = atAdd a (atAdd b c)
    ∧ atChildren (atAdd (atAdd a b) c)
        = atChildren a ++ (atChildren b ++ atChildren c)
    ∧ (∀ x, atFwd (atAdd (atAdd a b) c) x = atFwd (atAdd a (atAdd b c)) x)
    ∧ (∀ y, atInv (atAdd (atAdd a b) c) y = atInv (atAdd a (atAdd b c)) y) := by
  have key : ∀ x y : AT, atChildren (atAdd x y) = atChildren x ++ atChildren y := by
    intro x y; rw [atAdd_eq]; rfl
  have assoc : atAdd (atAdd a b) c = atAdd a (atAdd b c) := by
    rw [atAdd_eq (atAdd a b) c, atAdd_eq a (atAdd b c), key, key,
      List.append_assoc]
  refine ⟨key a b, assoc, ?_, fun x => by rw [assoc], fun y => by rw [assoc]⟩
  rw [key, key, List.append_assoc]

/-- C7, counterexample: on an `IF` instance whose `method` field is not one
of the three enum members, `invert` does not raise — it returns the
(denormalized) input as a value, because none of the branch guards in
`IF.invert` matches and no `else` raises. -/
theorem c7_counterexample :
    ifInvert cfgOther txOne = Except.ok txOne := by
  simp [ifInvert, cfgOther, repNormInvert]

/-- C7, amended: for an unknown `method` value, `get_if` (and hence
`forward`) raises `AttributeError`, but `invert` silently returns the
denormalized input without applying any integration. -/
theorem c7_amended (c : IFT) (x y : Tens) (h : c.method = .other) :
    ifGetIF c x = Except.error AttrErr.methodNotKnown
    ∧ ifForward c x = Except.error AttrErr.methodNotKnown
    ∧ ifInvert c y = Except.ok (repNormInvert c.norm y) := by
  refine ⟨?_, ?_, ?_⟩ <;> simp [ifGetIF, ifForward, ifInvert, h, Except.map]

/-- C7, witness: the amended statement at the concrete misconfigured
instance and tensor. -/
theorem c7_witness :
    ifGetIF cfgOther txOne = Except.error AttrErr.methodNotKnown
    ∧ ifForward cfgOther txOne = Except.error AttrErr.methodNotKnown
    ∧ ifInvert cfgOther txOne = Except.ok (repNormInvert cfgOther.norm txOne) :=
  c7_amended cfgOther txOne txOne rfl

/-- C9: every elementary representation instance reports
`invertible = True`, `scriptable = True` and `needs_scaling = False`
through the `_Representation` properties, whatever its class, configuration
or fitted state (the property shadows the class attribute
`needs_scaling = True`); hence a composition of such representations
reports `needs_scaling = False` as well. -/
theorem c9_rep_flags (r : RepInstance) (rs : List RepInstance)
    (f g : RepInstance → Tens → Tens) :
    repInvertible r = true
    ∧ repScriptable r = true
    ∧ repNeedsScaling r = false
    ∧ atNeedsScaling
        (AT.comp (rs.map fun q => AT.leaf (repFlagsLeaf q (f q) (g q))))
      = false := by
  refine ⟨rfl, rfl, rfl, ?_⟩
  rw [atNeedsScaling]
  induction rs with
  | nil => rfl
  | cons q qs ih =>
      simpa [atAnyNeedsScaling, atNeedsScaling, repFlagsLeaf,
        repNeedsScaling] using ih

/-! ## Lemmas for C8 -/

/-- Elementwise maps preserve the number of slices. -/
theorem ntMapL_length (f : ℂ → ℂ) (l : List NTen) :
    (ntMapL f l).length = l.length := by
  induction l with
  | nil => rfl
  | cons x xs ih => simp [ntMapL, ih]

/-- Elementwise maps preserve the shape of tensor data. -/
theorem ntShape_ntMap (f : ℂ → ℂ) : ∀ d : NTen, ntShape (ntMap f d) = ntShape d
  | .s _ => rfl
  | .t [] => rfl
  | .t (h :: r) => by
      show ntShape (.t (ntMap f h :: ntMapL f r)) = _
      simp [ntShape, ntMapL_length, ntShape_ntMap f h]

mutual
/-- Every entry of a constant-zero map is zero. -/
theorem ntEntries_zero : ∀ d : NTen,
    ∀ z ∈ ntEntries (ntMap (fun _ => (0 : ℂ)) d), z = 0
  | .s v => by simp [ntMap, ntEntries]
  | .t l => by
      simp only [ntMap, ntEntries]
      exact ntEntriesL_zero l

/-- Every entry of a constant-zero map over a slice list is zero. -/
theorem ntEntriesL_zero : ∀ l : List NTen,
    ∀ z ∈ ntEntriesL (ntMapL (fun _ => (0 : ℂ)) l), z = 0
  | [] => by simp [ntMapL, ntEntriesL]
  | x :: xs => by
      simp only [ntMapL, ntEntriesL, List.mem_append]
      rintro z (h | h)
      · exact ntEntries_zero x z h
      · exact ntEntriesL_zero xs z h
end

/-- C8: `Imaginary.forward` normalizes the imaginary part when the input has
complex dtype, and otherwise returns a zero tensor of the same shape (and
dtype); `Imaginary.invert` is the inherited `_Representation.invert`, which
only denormalizes its argument. -/
theorem c8_imaginary (n : RepNorm) (x : Tens) :
    (x.cplx = true → imagFwd n x = repNormApply n (timag x))
    ∧ (x.cplx = false →
        imagFwd n x = zerosLike x
        ∧ (zerosLike x).cplx = x.cplx
        ∧ ntShape (zerosLike x).data = ntShape x.data
        ∧ ∀ z ∈ tEntries (zerosLike x), z = 0)
    ∧ (∀ y, repInvert n y = repNormInvert n y) := by
  refine ⟨fun h => by simp [imagFwd, h], fun h => ?_, fun _ => rfl⟩
  refine ⟨by simp [imagFwd, h], rfl, ntShape_ntMap _ x.data, ?_⟩
  exact fun z hz => ntEntries_zero x.data z hz

/-- C8, witness: the theorem applied at a concrete complex tensor and at a
concrete real tensor, with the dtype hypotheses discharged. -/
theorem c8_witness :
    imagFwd none xIF = repNormApply none (timag xIF)
    ∧ imagFwd none txOne = zerosLike txOne :=
  ⟨(c8_imaginary none xIF).1 rfl, ((c8_imaginary none txOne).2.1 rfl).1⟩

/-! ## Evaluation lemmas for the wrap operation -/

/-- Values already in the principal interval are fixed by the wrap. -/
theorem wrapR_self {r : ℝ} (h1 : -Real.pi < r) (h2 : r ≤ Real.pi) :
    wrapR r = r := by
  unfold wrapR
  refine (toIocMod_eq_self _).mpr ⟨h1, ?_⟩
  linarith

/-- Unfolding of the complex-entry wrap. -/
theorem wrapC_re (z : ℂ) : wrapC z = (wrapR z.re : ℂ) := rfl

/-- Wrap of `pi / 2`. -/
theorem wrapR_half_pi : wrapR (Real.pi / 2) = Real.pi / 2 :=
  wrapR_self (by linarith [Real.pi_pos]) (by linarith [Real.pi_pos])

/-- Wrap of `pi - pi / 2`. -/
theorem wrapR_pi_sub_half : wrapR (Real.pi - Real.pi / 2) = Real.pi / 2 := by
  have h : Real.pi - Real.pi / 2 = Real.pi / 2 := by ring
  rw [h]; exact wrapR_half_pi

/-- Wrap of `-(pi / 2) - pi`: the step from angle `pi` down to angle
`-(pi/2)` is reduced to the principal step `pi / 2`. -/
theorem wrapR_wrapAround : wrapR (-(Real.pi / 2) - Real.pi) = Real.pi / 2 := by
  unfold wrapR
  rw [toIocMod_eq_iff]
  refine ⟨⟨by linarith [Real.pi_pos], by linarith [Real.pi_pos]⟩, ⟨-1, ?_⟩⟩
  push_cast [zsmul_eq_mul]
  ring

/-- The window values at length 3: `1/2, 1/2, 0`. -/
theorem winVal_three :
    winVal 3 0 = 1 / 2 ∧ winVal 3 1 = 1 / 2 ∧ winVal 3 2 = 0 := by
  refine ⟨?_, ?_, ?_⟩ <;> norm_num [winVal]

/-- C10: `IF.invert` reads only the method and the wrapped norm, never the
`weighted` flag, so its result is identical whether `weighted` is true or
false — the triangular window that `get_if` multiplied in when `weighted`
is set is never divided back out (as the second conjunct shows, the window
does change the forward output). -/
theorem c10_invert_ignores_weighted :
    (∀ (m : IFMethodField) (n : RepNorm) (w w2 : Bool) (y : Tens),
        ifInvert ⟨m, n, w⟩ y = ifInvert ⟨m, n, w2⟩ y)
    ∧ ifForward ⟨.known .FORWARD, none, true⟩ xWin
        ≠ ifForward ⟨.known .FORWARD, none, false⟩ xWin := by
  constructor
  · intro m n w w2 y; rfl
  · intro h
    simp only [ifForward, ifGetIF, xWin, tangle, ntMap, ntMapL,
      Complex.arg_one, Complex.arg_I, Complex.arg_neg_one,
      Complex.ofReal_zero, tunwrap, unwrapAuxL, ntZip, ntZipL, wrapC_re,
      Complex.sub_re, Complex.ofReal_re, Complex.zero_re, sub_zero, zero_add,
      wrapR_half_pi, wrapR_pi_sub_half, tDim0, fdiffForwardL, consecDiffL,
      modInitL, applyWindow, ntRank, ntShape, sizeNeg2, ntWinMul, ntWinMulL,
      ntWinIdxL, List.getD, Except.map, repNormApply, add_sub_cancel_left,
      mul_zero, winVal_three] at h
    simp [winVal_three.1, winVal_three.2.1, winVal_three.2.2, piC] at h
    have hpi : (Real.pi : ℂ) ≠ 0 := Complex.ofReal_ne_zero.mpr Real.pi_ne_zero
    field_simp at h
    exact Real.pi_ne_zero h

/-- C2, code bug at CENTRAL: on the signal with angles `0, pi/2, pi, -pi/2`
(unwrapped phase `0, pi/2, pi, 3pi/2`) and an unnormalized CENTRAL `IF`,
`forward` divides the interior entries by `2 pi` (giving `0, 1/4, 1/4, 0`),
but `invert` multiplies them by `pi` only, so the reconstruction is
`0, 0, pi/2, pi/2` — its offset from the unwrapped phase is
`0, pi/2, pi/2, pi`, which is not a constant (last conjunct): the round trip
does not reconstruct the trajectory up to a constant offset. -/
theorem c2_if_central_scale_bug :
    tunwrap (tangle xIF)
      = ⟨false, .t [.s 0, .s (Real.pi / 2 : ℝ), .s (Real.pi : ℝ),
          .s (3 * Real.pi / 2 : ℝ)]⟩
    ∧ ifForward cfgCentral xIF
      = Except.ok ⟨false, .t [.s 0, .s (1 / 4), .s (1 / 4), .s 0]⟩
    ∧ ifInvert cfgCentral ⟨false, .t [.s 0, .s (1 / 4), .s (1 / 4), .s 0]⟩
      = Except.ok ⟨false, .t [.s 0, .s 0, .s ((Real.pi : ℂ) / 2),
          .s ((Real.pi : ℂ) / 2)]⟩
    ∧ (((Real.pi / 2 : ℝ) : ℂ) - 0 ≠ (0 : ℂ) - 0) := by
  refine ⟨?_, ?_, ?_, ?_⟩
  · simp only [tangle, xIF, ntMap, ntMapL, Complex.arg_one, Complex.arg_I,
      Complex.arg_neg_one, Complex.arg_neg_I, Complex.ofReal_zero,
      Complex.ofReal_neg, tunwrap, unwrapAuxL, ntZip, ntZipL, wrapC_re,
      Complex.sub_re, Complex.neg_re, Complex.ofReal_re, Complex.zero_re,
      sub_zero, zero_add, wrapR_half_pi, wrapR_pi_sub_half, wrapR_wrapAround]
    norm_num
    ring
  · simp only [ifForward, ifGetIF, cfgCentral, tangle, xIF, ntMap, ntMapL,
      Complex.arg_one, Complex.arg_I, Complex.arg_neg_one, Complex.arg_neg_I,
      Complex.ofReal_zero, Complex.ofReal_neg, tunwrap, unwrapAuxL, ntZip,
      ntZipL, wrapC_re, Complex.sub_re, Complex.neg_re, Complex.ofReal_re,
      Complex.zero_re, sub_zero, zero_add, wrapR_half_pi, wrapR_pi_sub_half,
      wrapR_wrapAround, tDim0, fdiffCentralL, centralDiffL, modInteriorL,
      modInitL, List.getLastD, Except.map, repNormApply, piC]
    norm_num
    have hpi : (Real.pi : ℂ) ≠ 0 := Complex.ofReal_ne_zero.mpr Real.pi_ne_zero
    field_simp
    ring
  · simp [ifInvert, cfgCentral, repNormInvert, tDim0, modInteriorL,
      modInitL, fintCentralL, centralIntAux, ntMap, ntMapL, ntZip, ntZipL,
      List.dropLast, piC]
    norm_num
    ring
  · intro h
    simp at h
    exact Real.pi_ne_zero h

/-- The clamping epsilon is positive. -/
theorem normEps_pos : 0 < normEps := by norm_num [normEps]

/-- C1, code bug: on the uniform 1x1 complex tensor `1 + 1j` with fitted
GAUSSIAN statistics, `Cartesian.forward` yields the stacked pair
`[norm(1), norm(1)] = [0, 0]` (first conjunct, as the claim says), but
`invert` reassembles the complex value with the polar formula
`mag * exp(i phase)` inherited from `SpectralRepresentation`, giving
`1 * exp(1j)` (second conjunct), which misses `1 + 1j` by far more than the
default tolerance `1e-4` (third conjunct): `invert(forward(x))` does not
reconstruct the Cartesian input within tolerance. -/
theorem c1_cartesian_roundtrip_bug :
    cartForward (cartScaleData cartDefault xCart) xCart
      = SROut.single ⟨false, .t [.t [.t [.s 0], .t [.s 0]]]⟩
    ∧ cartInvert (cartScaleData cartDefault xCart)
        (cartForward (cartScaleData cartDefault xCart) xCart)
      = ⟨true, .t [.t [.s (Complex.exp Complex.I)]]⟩
    ∧ invTolerance < Complex.abs (Complex.exp Complex.I - (1 + Complex.I)) := by
  have hscale : cartScaleData cartDefault xCart
      = ⟨some ⟨.GAUSSIAN, 1, normEps, 0, 1, true⟩,
         some ⟨.GAUSSIAN, 1, normEps, 0, 1, true⟩, some (-2)⟩ := by
    simp [cartScaleData, cartDefault, cartInit, repNormScale, normScaleData,
      normInit, treal, timag, xCart, ntMap, ntMapL, tMean, tVar, tEntries,
      ntEntries, ntEntriesL, Real.sqrt_zero,
      max_eq_right (le_of_lt normEps_pos)]
  rw [hscale]
  refine ⟨?_, ?_, ?_⟩
  · simp [cartForward, srForward, realFwd, imagFwd, xCart, repNormApply,
      normApply, treal, timag, tmap, ntMap, ntMapL, tstack, normDim,
      ntStackAt, ntStackAtL, ntRank]
  · simp [cartInvert, cartForward, srForward, srInvert, realFwd, imagFwd,
      xCart, repNormApply, repNormInvert, repInvert, normApply, normInvert,
      treal, timag, tmap, ntMap, ntMapL, tstack, tSelSq, normDim, ntStackAt,
      ntStackAtL, ntSelSq, ntSelSqL, ntRank, ntZip, ntZipL, List.getD]
  · have hexp : (Complex.exp Complex.I).re = Real.cos 1 := by
      have h1 := Complex.exp_ofReal_mul_I_re 1
      rwa [Complex.ofReal_one, one_mul] at h1
    have hre : (Complex.exp Complex.I - (1 + Complex.I)).re = Real.cos 1 - 1 := by
      simp [Complex.sub_re, Complex.add_re, Complex.one_re, Complex.I_re, hexp]
    have habs : |(Complex.exp Complex.I - (1 + Complex.I)).re|
        ≤ Complex.abs (Complex.exp Complex.I - (1 + Complex.I)) :=
      Complex.abs_re_le_abs _
    have hcos : Real.cos 1 ≤ 2 / 3 := Real.cos_one_le
    have hmid : (1 : ℝ) / 3 ≤ |Real.cos 1 - 1| := by
      rw [abs_of_nonpos (by linarith)]
      linarith
    rw [hre] at habs
    calc invTolerance < 1 / 3 := by norm_num [invTolerance]
      _ ≤ |Real.cos 1 - 1| := hmid
      _ ≤ _ := habs
